import Mathlib

/-! Shallow embedding of admin_async_upload/files.py (class ResumableFile),
together with a model of the narrow storage interface the class consumes:
a flat chunk blob store (exists / size / save / delete / open-read / listdir)
and an opaque persistent store used by collect. -/

namespace AsyncUpload

/-- Chunk payloads are opaque byte sequences; a byte is modelled as a Nat. -/
abbrev Bytes := List Nat

/-- The chunk storage: a flat blob store, modelled as an association list from
blob names to contents.  The operations below mirror the Django storage API
surface that files.py uses. -/
abbrev Store := List (String × Bytes)

namespace Store

/-- chunk_storage.exists(name). -/
def exists' (st : Store) (n : String) : Bool := st.any (fun e => e.1 == n)

/-- chunk_storage.open(name).read(): the stored bytes.  In every flow modelled
here the name comes from a listing, so it is present; absent names default to
the empty blob. -/
def read (st : Store) (n : String) : Bytes := (List.lookup n st).getD []

/-- chunk_storage.size(name). -/
def size (st : Store) (n : String) : Nat := (read st n).length

/-- chunk_storage.delete(name). -/
def delete (st : Store) (n : String) : Store := st.filter (fun e => e.1 != n)

/-- chunk_storage.save(name, content): creates the blob under the given name
(its caller process_chunk deletes any existing blob of that name first). -/
def save (st : Store) (n : String) (b : Bytes) : Store := (n, b) :: st

/-- chunk_storage.listdir('')[1]: the names of all stored blobs, unsorted
(the callers in files.py sort this listing themselves). -/
def listdir (st : Store) : List String := st.map Prod.fst

end Store

/-- Decimal digit list of n, as produced by Python str() on a non-negative
int.  The first argument is recursion fuel; n + 1 fuel is always enough. -/
def pyDigitsAux : Nat → Nat → List Char
  | 0, _ => []
  | fuel + 1, n =>
    if n < 10 then [Nat.digitChar n]
    else pyDigitsAux fuel (n / 10) ++ [Nat.digitChar (n % 10)]

/-- Python str(n) for a non-negative integer n. -/
def pyStr (n : Nat) : String := String.mk (pyDigitsAux (n + 1) n)

/-- Python str.zfill(width) for strings without a sign prefix: left-pad with
zeros up to the requested width. -/
def zfill (s : String) (width : Nat) : String :=
  String.mk (List.replicate (width - s.data.length) '0' ++ s.data)

/-- Membership of a character in a fnmatch bracket-class body: a dash between
two characters denotes a range, all other characters are literal. -/
def charInSet : List Char → Char → Bool
  | a :: '-' :: b :: rest, c => (a ≤ c && c ≤ b) || charInSet rest c
  | a :: rest, c => (a == c) || charInSet rest c
  | [], _ => false

/-- Scan the body of a fnmatch bracket class up to the closing bracket.
Returns the class characters and the remaining pattern, or none when the
class is unterminated. -/
def scanClass : List Char → Option (List Char × List Char)
  | [] => none
  | ']' :: rest => some ([], rest)
  | c :: rest => (scanClass rest).map (fun q => (c :: q.1, q.2))

/-- Parse a fnmatch bracket class, the opening bracket already consumed:
an optional negation marker, then a body whose first character may be a
literal closing bracket. -/
def parseClass (l : List Char) : Option (Bool × List Char × List Char) :=
  let start : Bool × List Char :=
    match l with
    | '!' :: rest => (true, rest)
    | _ => (false, l)
  match start.2 with
  | ']' :: rest => (scanClass rest).map (fun q => (start.1, ']' :: q.1, q.2))
  | _ => (scanClass start.2).map (fun q => (start.1, q.1, q.2))

/-- Fuel-driven matcher for fnmatch glob patterns over character lists;
pattern length + string length + 1 fuel always suffices. -/
def globMatchF : Nat → List Char → List Char → Bool
  | 0, _, _ => false
  | f + 1, p, s =>
    match p with
    | [] => s.isEmpty
    | c :: p1 =>
      if c = '*' then
        globMatchF f p1 s ||
          (match s with
           | [] => false
           | _ :: s1 => globMatchF f p s1)
      else if c = '?' then
        (match s with
         | [] => false
         | _ :: s1 => globMatchF f p1 s1)
      else if c = '[' then
        (match parseClass p1 with
         | some (neg, cls, p2) =>
           (match s with
            | [] => false
            | d :: s1 => (neg != charInSet cls d) && globMatchF f p2 s1)
         | none =>
           (match s with
            | [] => false
            | d :: s1 => (d == '[') && globMatchF f p1 s1))
      else
        (match s with
         | [] => false
         | d :: s1 => (c == d) && globMatchF f p1 s1)

/-- fnmatch.fnmatch(name, pattern) on a case-preserving filesystem. -/
def fnmatch (name pat : String) : Bool :=
  globMatchF (pat.data.length + name.data.length + 1) pat.data name.data

/-- Error taxonomy for the exceptions files.py raises or propagates. -/
inductive UploadError where
  | invalidFilename
  | incompleteUpload
  | chunkReadFailure
  | chunkStoreFailure
  | persistentStoreFailure
deriving DecidableEq, Repr

/-- The request parameter bag (self.params) as consumed by ResumableFile.
resumableChunkNumber stays in wire form (a string, zero-filled by
current_chunk_name); the numeric fields are modelled already decoded and are
re-rendered in decimal where the source interpolates them into names. -/
structure Params where
  resumableFilename : String
  resumableTotalSize : Nat
  resumableChunkNumber : String
  resumableCurrentChunkSize : Nat
deriving DecidableEq, Repr

/-- self.chunk_suffix. -/
def chunk_suffix : String := "_part_"

/-- ResumableFile.filename: raises on a filename containing a path separator,
otherwise returns "<resumableTotalSize>_<resumableFilename>". -/
def filename (p : Params) : Except UploadError String :=
  if p.resumableFilename.data.contains '/' then .error .invalidFilename
  else .ok (pyStr p.resumableTotalSize ++ "_" ++ p.resumableFilename)

/-- ResumableFile.current_chunk_name: filename + chunk_suffix + the chunk
number zero-filled to four characters. -/
def current_chunk_name (p : Params) : Except UploadError String :=
  match filename p with
  | .error e => .error e
  | .ok fn => .ok (fn ++ chunk_suffix ++ zfill p.resumableChunkNumber 4)

/-- ResumableFile.chunk_names: sort the storage listing, keep the names that
fnmatch the pattern filename + chunk_suffix + "*". -/
def chunk_names (st : Store) (p : Params) : Except UploadError (List String) :=
  match filename p with
  | .error e => .error e
  | .ok fn =>
    .ok (((Store.listdir st).insertionSort (fun a b : String => a ≤ b)).filter
      (fun f => fnmatch f (fn ++ chunk_suffix ++ "*")))

/-- ResumableFile.chunk_exists: a chunk named current_chunk_name exists in
chunk storage and its stored size equals int(resumableCurrentChunkSize). -/
def chunk_exists (st : Store) (p : Params) : Except UploadError Bool :=
  match current_chunk_name p with
  | .error e => .error e
  | .ok ccn =>
    .ok (Store.exists' st ccn && (Store.size st ccn == p.resumableCurrentChunkSize))

/-- ResumableFile.size: combined size of all stored chunks of this upload. -/
def size (st : Store) (p : Params) : Except UploadError Nat :=
  match chunk_names st p with
  | .error e => .error e
  | .ok names => .ok (names.foldl (fun acc c => acc + Store.size st c) 0)

/-- ResumableFile.is_complete: int(resumableTotalSize) == self.size. -/
def is_complete (st : Store) (p : Params) : Except UploadError Bool :=
  match size st p with
  | .error e => .error e
  | .ok s => .ok (p.resumableTotalSize == s)

/-- ResumableFile.process_chunk: if a chunk named current_chunk_name exists,
delete it, then save the received bytes under that name. -/
def process_chunk (st : Store) (p : Params) (b : Bytes) : Except UploadError Store :=
  match current_chunk_name p with
  | .error e => .error e
  | .ok ccn =>
    let st1 := if Store.exists' st ccn then Store.delete st ccn else st
    .ok (Store.save st1 ccn b)

/-- ResumableFile.process_chunk with an explicit outcome for its save step:
when saveFails is true, chunk_storage.save raises after the delete-if-exists
step has already run; the pair returned is the resulting chunk-store state
and the call outcome. -/
def process_chunk_run (saveFails : Bool) (st : Store) (p : Params) (b : Bytes) :
    Store × Except UploadError Unit :=
  match current_chunk_name p with
  | .error e => (st, .error e)
  | .ok ccn =>
    let st1 := if Store.exists' st ccn then Store.delete st ccn else st
    if saveFails then (st1, .error .chunkStoreFailure)
    else (Store.save st1 ccn b, .ok ())

/-- ResumableFile.delete_chunks: delete every name in chunk_names. -/
def delete_chunks (st : Store) (p : Params) : Except UploadError Store :=
  match chunk_names st p with
  | .error e => .error e
  | .ok names => .ok (names.foldl Store.delete st)

/-- A fault oracle for chunk reads: faults c k is true when the k-th read
attempt (0 = first try, 1 = the in-line retry) on chunk c raises. -/
abbrev ReadFaults := String → Nat → Bool

/-- One chunk_storage.open(chunk).read() attempt under the fault oracle. -/
def readChunk (faults : ReadFaults) (st : Store) (c : String) (attempt : Nat) :
    Except UploadError Bytes :=
  if faults c attempt then .error .chunkReadFailure else .ok (Store.read st c)

/-- The temporary file made by tempfile.NamedTemporaryFile("w+b"): sequential
writes append to the content and advance the file position. -/
structure TempFile where
  content : Bytes
  pos : Nat
deriving DecidableEq, Repr

/-- A write on the temporary file. -/
def TempFile.write (f : TempFile) (b : Bytes) : TempFile :=
  { content := f.content ++ b, pos := f.pos + b.length }

/-- One loop iteration of ResumableFile.file: write the chunk's bytes into
the temporary file, retrying the read exactly once, inline, when the first
attempt raises; a second failure propagates. -/
def writeChunk (faults : ReadFaults) (st : Store) (acc : TempFile) (c : String) :
    Except UploadError TempFile :=
  match readChunk faults st c 0 with
  | .ok b => .ok (acc.write b)
  | .error _ =>
    match readChunk faults st c 1 with
    | .ok b => .ok (acc.write b)
    | .error e => .error e

/-- ResumableFile.file: raise when the upload is incomplete, else write every
chunk in chunk_names order into a fresh temporary file, retrying each failed
read exactly once in place, and return the handle exactly as the writes left
it (no seek is issued). -/
def file (faults : ReadFaults) (st : Store) (p : Params) :
    Except UploadError TempFile :=
  match is_complete st p with
  | .error e => .error e
  | .ok comp =>
    if comp = false then .error .incompleteUpload
    else
      match chunk_names st p with
      | .error e => .error e
      | .ok names => names.foldlM (writeChunk faults st) (⟨[], 0⟩ : TempFile)

/-- The collaborators of collect that live outside files.py: the upload path
joiner (ResumableStorage.full_filename with the field's upload_to) and the
persistent storage save call, which returns the actual filename used by the
persistent store, or none when that save raises. -/
structure Env where
  full_filename : String → String → String
  upload_to : String
  psave : String → Bytes → Option String

/-- ResumableFile.storage_filename: the persistent-store target path for this
upload, delegated to the external ResumableStorage.full_filename. -/
def storage_filename (env : Env) (p : Params) : Except UploadError String :=
  match filename p with
  | .error e => .error e
  | .ok fn => .ok (env.full_filename fn env.upload_to)

/-- ResumableFile.collect: merge via the file property, hand the merged bytes
to persistent_storage.save, then delete all chunks; returns the resulting
chunk-store state together with the outcome. -/
def collect (env : Env) (faults : ReadFaults) (st : Store) (p : Params) :
    Store × Except UploadError String :=
  match storage_filename env p with
  | .error e => (st, .error e)
  | .ok sfn =>
    match file faults st p with
    | .error e => (st, .error e)
    | .ok tf =>
      match env.psave sfn tf.content with
      | none => (st, .error .persistentStoreFailure)
      | some actual =>
        match delete_chunks st p with
        | .error e => (st, .error e)
        | .ok st2 => (st2, .ok actual)

/-- The upload identity string that ResumableFile.filename derives for an
accepted filename. -/
def identity (F : String) (T : Nat) : String := pyStr T ++ "_" ++ F

/-- The stored chunk name for chunk index i of the upload (F, T), with the
index sent in canonical decimal wire form. -/
def chunkNameOf (F : String) (T i : Nat) : String :=
  identity F T ++ chunk_suffix ++ zfill (pyStr i) 4

/-- Build the parameter bag of one chunk request. -/
def mkParams (F : String) (T : Nat) (num : String) (csize : Nat) : Params :=
  ⟨F, T, num, csize⟩

/-- Process the payloads of the given chunk indices in the given arrival
order, each declared with its actual byte length. -/
def processAll (F : String) (T : Nat) (payload : Nat → Bytes)
    (order : List Nat) (st : Store) : Except UploadError Store :=
  order.foldlM
    (fun s i => process_chunk s (mkParams F T (pyStr i) (payload i).length) (payload i))
    st

/-- Filenames free of the path separator and of fnmatch metacharacters. -/
abbrev plainName (F : String) : Prop :=
  ∀ c ∈ F.data, c ≠ '/' ∧ c ≠ '*' ∧ c ≠ '?' ∧ c ≠ '['

deriving instance DecidableEq for Except

/-! Lemmas about the decimal rendering and zero-filling of chunk numbers. -/

/-- Unfolding principle for pyDigitsAux under positive fuel. -/
theorem pyDigitsAux_unfold (f n : Nat) (h : 0 < f) :
    pyDigitsAux f n =
      if n < 10 then [Nat.digitChar n]
      else pyDigitsAux (f - 1) (n / 10) ++ [Nat.digitChar (n % 10)] := by
  cases f with
  | zero => omega
  | succ f => rfl

/-- The four decimal digits of a number below 10000, most significant first. -/
def dig4 (n : Nat) : List Char :=
  [Nat.digitChar (n / 1000 % 10), Nat.digitChar (n / 100 % 10),
   Nat.digitChar (n / 10 % 10), Nat.digitChar (n % 10)]

/-- For chunk numbers up to 9999, zfill of the decimal rendering yields the
four-digit form. -/
theorem zfill_pyStr_eq_dig4 {n : Nat} (h : n ≤ 9999) :
    (zfill (pyStr n) 4).data = dig4 n := by
  by_cases h10 : n < 10
  · have e1 : n / 1000 % 10 = 0 := by omega
    have e2 : n / 100 % 10 = 0 := by omega
    have e3 : n / 10 % 10 = 0 := by omega
    have e4 : n % 10 = n := by omega
    simp only [zfill, pyStr, pyDigitsAux, if_pos h10, dig4, e1, e2, e3, e4]
    rfl
  · by_cases h100 : n < 100
    · have hpos : 0 < n := by omega
      have hq : n / 10 < 10 := by omega
      have e1 : n / 1000 % 10 = 0 := by omega
      have e2 : n / 100 % 10 = 0 := by omega
      have e3 : n / 10 % 10 = n / 10 := by omega
      simp only [zfill, pyStr, pyDigitsAux, if_neg h10,
        pyDigitsAux_unfold n (n / 10) hpos, if_pos hq, dig4, e1, e2, e3]
      rfl
    · by_cases h1000 : n < 1000
      · have hpos : 0 < n := by omega
        have hpos1 : 0 < n - 1 := by omega
        have hq : ¬ n / 10 < 10 := by omega
        have hq2 : n / 10 / 10 < 10 := by omega
        have e0 : n / 10 / 10 = n / 100 := by omega
        have e1 : n / 1000 % 10 = 0 := by omega
        have e2 : n / 100 % 10 = n / 100 := by omega
        simp only [zfill, pyStr, pyDigitsAux, if_neg h10,
          pyDigitsAux_unfold n (n / 10) hpos, if_neg hq, e0,
          pyDigitsAux_unfold (n - 1) (n / 100) hpos1, if_pos (by omega : n / 100 < 10),
          dig4, e1, e2]
        rfl
      · have hpos : 0 < n := by omega
        have hpos1 : 0 < n - 1 := by omega
        have hpos2 : 0 < n - 1 - 1 := by omega
        have hq : ¬ n / 10 < 10 := by omega
        have e0 : n / 10 / 10 = n / 100 := by omega
        have hq2 : ¬ n / 100 < 10 := by omega
        have e5 : n / 100 / 10 = n / 1000 := by omega
        have e1 : n / 1000 % 10 = n / 1000 := by omega
        have e2 : n / 100 % 10 = n / 100 % 10 := rfl
        simp only [zfill, pyStr, pyDigitsAux, if_neg h10,
          pyDigitsAux_unfold n (n / 10) hpos, if_neg hq, e0,
          pyDigitsAux_unfold (n - 1) (n / 100) hpos1, if_neg hq2, e5,
          pyDigitsAux_unfold (n - 1 - 1) (n / 1000) hpos2,
          if_pos (by omega : n / 1000 < 10), dig4, e1]
        rfl

/-- digitChar is strictly monotone on decimal digits. -/
theorem digitChar_lt_of_lt :
    ∀ a, a < 10 → ∀ b, b < 10 → a < b → Nat.digitChar a < Nat.digitChar b := by
  decide

/-- digitChar is injective on decimal digits. -/
theorem digitChar_inj_of_lt :
    ∀ a, a < 10 → ∀ b, b < 10 → Nat.digitChar a = Nat.digitChar b → a = b := by
  decide

/-- Decimal digits render to characters free of the path separator and of the
fnmatch metacharacters. -/
theorem digitChar_plain : ∀ d, d < 10 →
    Nat.digitChar d ≠ '/' ∧ Nat.digitChar d ≠ '*' ∧
    Nat.digitChar d ≠ '?' ∧ Nat.digitChar d ≠ '[' := by
  decide

/-- Every character of a decimal rendering is a digit character. -/
theorem mem_pyDigitsAux {f n : Nat} {c : Char} (h : c ∈ pyDigitsAux f n) :
    ∃ d, d < 10 ∧ c = Nat.digitChar d := by
  induction f generalizing n with
  | zero => simp [pyDigitsAux] at h
  | succ f ih =>
    simp only [pyDigitsAux] at h
    by_cases h10 : n < 10
    · rw [if_pos h10] at h
      simp only [List.mem_singleton] at h
      exact ⟨n, h10, h⟩
    · rw [if_neg h10] at h
      rcases List.mem_append.mp h with h | h
      · exact ih h
      · simp only [List.mem_singleton] at h
        exact ⟨n % 10, by omega, h⟩

/-- The four-digit forms are ordered lexicographically like the numbers. -/
theorem dig4_lex_lt {a b : Nat} (hb : b ≤ 9999) (hab : a < b) :
    List.Lex (fun x y : Char => x < y) (dig4 a) (dig4 b) := by
  have ha : a ≤ 9999 := by omega
  simp only [dig4]
  rcases Nat.lt_trichotomy (a / 1000 % 10) (b / 1000 % 10) with h1 | h1 | h1
  · exact List.Lex.rel (digitChar_lt_of_lt _ (by omega) _ (by omega) h1)
  · rw [h1]
    apply List.Lex.cons
    rcases Nat.lt_trichotomy (a / 100 % 10) (b / 100 % 10) with h2 | h2 | h2
    · exact List.Lex.rel (digitChar_lt_of_lt _ (by omega) _ (by omega) h2)
    · rw [h2]
      apply List.Lex.cons
      rcases Nat.lt_trichotomy (a / 10 % 10) (b / 10 % 10) with h3 | h3 | h3
      · exact List.Lex.rel (digitChar_lt_of_lt _ (by omega) _ (by omega) h3)
      · rw [h3]
        apply List.Lex.cons
        have h4 : a % 10 < b % 10 := by omega
        exact List.Lex.rel (digitChar_lt_of_lt _ (by omega) _ (by omega) h4)
      · omega
    · omega
  · omega

/-- Lexicographic order is preserved under a common left context. -/
theorem lex_append_left {r : Char → Char → Prop} :
    ∀ (p a b : List Char), List.Lex r a b → List.Lex r (p ++ a) (p ++ b)
  | [], _, _, h => h
  | _ :: p, a, b, h => List.Lex.cons (lex_append_left p a b h)

/-- Chunk names of one upload sort by chunk index while indices stay within
the four-digit zero-fill capacity. -/
theorem chunkNameOf_lt (F : String) (T : Nat) {i j : Nat} (hij : i < j) (hj : j ≤ 9999) :
    chunkNameOf F T i < chunkNameOf F T j := by
  rw [String.lt_iff_toList_lt]
  show List.Lex (fun x y : Char => x < y) (chunkNameOf F T i).data (chunkNameOf F T j).data
  simp only [chunkNameOf, String.data_append]
  rw [zfill_pyStr_eq_dig4 (by omega : i ≤ 9999), zfill_pyStr_eq_dig4 hj]
  exact lex_append_left _ _ _ (dig4_lex_lt hj hij)

/-- Chunk names of one upload are distinct for distinct indices within the
zero-fill capacity. -/
theorem chunkNameOf_ne (F : String) (T : Nat) {i j : Nat} (hi : i ≤ 9999) (hj : j ≤ 9999)
    (hne : i ≠ j) : chunkNameOf F T i ≠ chunkNameOf F T j := by
  rcases Nat.lt_or_ge i j with h | h
  · exact ne_of_lt (chunkNameOf_lt F T h hj)
  · exact (ne_of_lt (chunkNameOf_lt F T (by omega) hi)).symm

/-- A bare star pattern matches everything, given enough fuel. -/
theorem globMatchF_star_all : ∀ (s : List Char) (f : Nat), s.length + 2 ≤ f →
    globMatchF f ['*'] s = true := by
  intro s
  induction s with
  | nil =>
    intro f hf
    obtain ⟨f, rfl⟩ : ∃ g, f = g + 1 := ⟨f - 1, by omega⟩
    obtain ⟨f, rfl⟩ : ∃ g, f = g + 1 := ⟨f - 1, by omega⟩
    rfl
  | cons c s ih =>
    intro f hf
    obtain ⟨f, rfl⟩ : ∃ g, f = g + 1 := ⟨f - 1, by omega⟩
    have h2 : globMatchF f ['*'] s = true := ih f (by simp at hf ⊢; omega)
    show (globMatchF f [] (c :: s) || globMatchF f ['*'] s) = true
    rw [h2, Bool.or_true]

/-- Matching against a metacharacter-free prefix followed by a star is
exactly a prefix test. -/
theorem globMatchF_plain_prefix :
    ∀ (pre : List Char), (∀ c ∈ pre, c ≠ '*' ∧ c ≠ '?' ∧ c ≠ '[') →
    ∀ (s : List Char) (f : Nat), pre.length + s.length + 2 ≤ f →
      globMatchF f (pre ++ ['*']) s = pre.isPrefixOf s := by
  intro pre
  induction pre with
  | nil =>
    intro _ s f hf
    have h := globMatchF_star_all s f (by simpa using hf)
    simpa using h
  | cons c pre ih =>
    intro hplain s f hf
    obtain ⟨hc1, hc2, hc3⟩ := hplain c (List.mem_cons_self c pre)
    obtain ⟨f, rfl⟩ : ∃ g, f = g + 1 := ⟨f - 1, by omega⟩
    cases s with
    | nil =>
      simp only [List.cons_append, globMatchF]
      rw [if_neg hc1, if_neg hc2, if_neg hc3]
      rfl
    | cons d s =>
      simp only [List.cons_append, globMatchF]
      rw [if_neg hc1, if_neg hc2, if_neg hc3]
      have hr := ih (fun x hx => hplain x (List.mem_cons_of_mem c hx)) s f
        (by simp at hf ⊢; omega)
      simp only [hr]
      rfl

/-- fnmatch against a metacharacter-free pattern prefix followed by a star is
a prefix test on the name. -/
theorem fnmatch_prefix_pattern (pre s : String)
    (hplain : ∀ c ∈ pre.data, c ≠ '*' ∧ c ≠ '?' ∧ c ≠ '[') :
    fnmatch s (pre ++ "*") = pre.data.isPrefixOf s.data := by
  have hdata : (pre ++ "*").data = pre.data ++ ['*'] := by
    rw [String.data_append]
  have hlen : pre.data.length + s.data.length + 2 ≤ (pre ++ "*").data.length + s.data.length + 1 := by
    simp only [hdata, List.length_append, List.length_cons, List.length_nil]
    omega
  unfold fnmatch
  rw [hdata]
  exact globMatchF_plain_prefix pre.data hplain s.data _ hlen

/-- The characters of chunk_suffix are glob-plain and are not the path
separator. -/
theorem chunk_suffix_plain :
    ∀ c ∈ chunk_suffix.data, c ≠ '/' ∧ c ≠ '*' ∧ c ≠ '?' ∧ c ≠ '[' := by
  decide

/-- The pattern prefix used by chunk_names, identity + chunk_suffix, is free
of glob metacharacters whenever the filename is plain. -/
theorem identity_suffix_plain {F : String} (hF : plainName F) (T : Nat) :
    ∀ c ∈ (identity F T ++ chunk_suffix).data, c ≠ '*' ∧ c ≠ '?' ∧ c ≠ '[' := by
  intro c hc
  simp only [identity, String.data_append] at hc
  have hus : ∀ c ∈ ("_" : String).data, c ≠ '*' ∧ c ≠ '?' ∧ c ≠ '[' := by decide
  rcases List.mem_append.mp hc with hc | hc
  · rcases List.mem_append.mp hc with hc | hc
    · rcases List.mem_append.mp hc with hc | hc
      · obtain ⟨d, hd, rfl⟩ := mem_pyDigitsAux hc
        exact (digitChar_plain d hd).2
      · exact hus c hc
    · exact (hF c hc).2
  · exact (chunk_suffix_plain c hc).2

/-- Every chunk name of an upload fnmatch-matches the listing pattern of that
upload when the filename is plain. -/
theorem fnmatch_chunkNameOf {F : String} (hF : plainName F) (T i : Nat) :
    fnmatch (chunkNameOf F T i) (identity F T ++ chunk_suffix ++ "*") = true := by
  rw [fnmatch_prefix_pattern _ _ (identity_suffix_plain hF T)]
  simp only [chunkNameOf, String.data_append]
  exact List.isPrefixOf_iff_prefix.mpr (List.prefix_append _ _)

/-! Lemmas about the embedded ResumableFile operations. -/

/-- A plain filename passes the path-separator check. -/
theorem contains_slash_false {F : String} (hF : plainName F) :
    F.data.contains '/' = false := by
  rw [Bool.eq_false_iff]
  intro hc
  exact (hF _ (List.mem_of_elem_eq_true hc)).1 rfl

/-- filename succeeds on a plain filename and yields the upload identity. -/
theorem filename_ok {F : String} (hF : plainName F) (T : Nat) (num : String) (cs : Nat) :
    filename (mkParams F T num cs) = .ok (identity F T) := by
  simp only [filename, mkParams, contains_slash_false hF, Bool.false_eq_true, if_false]
  rfl

/-- current_chunk_name for a canonical decimal chunk number is the chunk name
of that index. -/
theorem current_chunk_name_ok {F : String} (hF : plainName F) (T i cs : Nat) :
    current_chunk_name (mkParams F T (pyStr i) cs) = .ok (chunkNameOf F T i) := by
  rw [current_chunk_name, filename_ok hF]
  rfl

/-- Existence in the store is membership of the name in the listing. -/
theorem exists_iff_mem_listdir {st : Store} {n : String} :
    Store.exists' st n = true ↔ n ∈ Store.listdir st := by
  simp [Store.exists', Store.listdir, List.any_eq_true]

/-- Unfolding existence over a freshly stored blob. -/
theorem exists_cons {e : String × Bytes} {st : Store} {n : String} :
    Store.exists' (e :: st) n = ((e.1 == n) || Store.exists' st n) := rfl

/-- Processing a batch of fresh, distinct, in-capacity chunk indices stores
exactly their payloads under their chunk names, most recent first. -/
theorem processAll_result {F : String} (hF : plainName F) (T : Nat) (payload : Nat → Bytes) :
    ∀ (order : List Nat) (st : Store),
      (∀ i ∈ order, i ≤ 9999) →
      order.Nodup →
      (∀ i ∈ order, Store.exists' st (chunkNameOf F T i) = false) →
      processAll F T payload order st =
        .ok ((order.reverse.map (fun i => (chunkNameOf F T i, payload i))) ++ st) := by
  intro order
  induction order with
  | nil => intro st _ _ _; rfl
  | cons i order ih =>
    intro st hbound hnodup hfresh
    have hstep : process_chunk st (mkParams F T (pyStr i) (payload i).length) (payload i)
        = .ok ((chunkNameOf F T i, payload i) :: st) := by
      rw [process_chunk, current_chunk_name_ok hF]
      simp only [hfresh i (List.mem_cons_self i order), Bool.false_eq_true, if_false]
      rfl
    have hbound' : ∀ j ∈ order, j ≤ 9999 := fun j hj => hbound j (List.mem_cons_of_mem i hj)
    have hfresh' : ∀ j ∈ order,
        Store.exists' ((chunkNameOf F T i, payload i) :: st) (chunkNameOf F T j) = false := by
      intro j hj
      have hij : i ≠ j := fun h => (List.nodup_cons.mp hnodup).1 (h ▸ hj)
      have hne : chunkNameOf F T i ≠ chunkNameOf F T j :=
        chunkNameOf_ne F T (hbound i (List.mem_cons_self i order)) (hbound' j hj) hij
      rw [exists_cons]
      simp [beq_eq_false_iff_ne.mpr hne, hfresh j (List.mem_cons_of_mem i hj)]
    have hrec := ih ((chunkNameOf F T i, payload i) :: st) hbound'
      (List.nodup_cons.mp hnodup).2 hfresh'
    show (process_chunk st (mkParams F T (pyStr i) (payload i).length) (payload i)).bind
        (fun s => processAll F T payload order s) = _
    rw [hstep]
    show processAll F T payload order ((chunkNameOf F T i, payload i) :: st) = _
    rw [hrec]
    simp [List.reverse_cons, List.map_append, List.append_assoc]

/-- The chunk names of indices 1..N, listed ascending, are a sorted list. -/
theorem sorted_chunkNames (F : String) (T : Nat) {N : Nat} (hN : N ≤ 9999) :
    List.Sorted (fun a b : String => a ≤ b) ((List.range' 1 N).map (chunkNameOf F T)) := by
  have hp : List.Pairwise (fun i j : Nat => chunkNameOf F T i ≤ chunkNameOf F T j)
      (List.range' 1 N) := by
    refine List.Pairwise.imp_of_mem ?_ (List.pairwise_lt_range' 1 N)
    intro a b ha hb hab
    have hb9 : b ≤ 9999 := by
      have := List.mem_range'_1.mp hb
      omega
    exact le_of_lt (chunkNameOf_lt F T hab hb9)
  exact List.pairwise_map.mpr hp

/-- Listing the chunk store after all chunks 1..N were processed yields the
chunk names in ascending index order, whatever the arrival order was. -/
theorem chunk_names_processed {F : String} (hF : plainName F) {T N : Nat} (hN : N ≤ 9999)
    (payload : Nat → Bytes) {order : List Nat} (hperm : order.Perm (List.range' 1 N))
    (num : String) (cs : Nat) :
    chunk_names (order.reverse.map (fun i => (chunkNameOf F T i, payload i)))
        (mkParams F T num cs) =
      .ok ((List.range' 1 N).map (chunkNameOf F T)) := by
  simp only [chunk_names, filename_ok hF T num cs]
  have hld : Store.listdir (order.reverse.map (fun i => (chunkNameOf F T i, payload i)))
      = order.reverse.map (chunkNameOf F T) := by
    simp [Store.listdir, List.map_map]
  rw [hld]
  have hsorted_eq :
      (order.reverse.map (chunkNameOf F T)).insertionSort (fun a b : String => a ≤ b)
        = (List.range' 1 N).map (chunkNameOf F T) := by
    refine List.eq_of_perm_of_sorted ?_ (List.sorted_insertionSort _ _) (sorted_chunkNames F T hN)
    refine (List.perm_insertionSort _ _).trans ?_
    exact ((List.reverse_perm order).map _).trans (hperm.map _)
  rw [hsorted_eq]
  have hfilter : ((List.range' 1 N).map (chunkNameOf F T)).filter
      (fun f => fnmatch f (identity F T ++ chunk_suffix ++ "*"))
      = (List.range' 1 N).map (chunkNameOf F T) := by
    rw [List.filter_eq_self]
    intro a ha
    obtain ⟨i, _, rfl⟩ := List.mem_map.mp ha
    exact fnmatch_chunkNameOf hF T i
  rw [hfilter]

/-- Reading a processed chunk back from the store yields its payload. -/
theorem read_processed {F : String} {T : Nat} {payload : Nat → Bytes} :
    ∀ (l : List Nat) (i : Nat), i ∈ l → (∀ j ∈ l, j ≤ 9999) →
      Store.read (l.map (fun j => (chunkNameOf F T j, payload j))) (chunkNameOf F T i)
        = payload i := by
  intro l
  induction l with
  | nil => intro i h _; cases h
  | cons j l ih =>
    intro i hmem hb
    by_cases hij : j = i
    · subst hij
      simp [Store.read, List.lookup]
    · have hi : i ∈ l := by
        rcases List.mem_cons.mp hmem with h | h
        · exact absurd h.symm hij
        · exact h
      have hne : chunkNameOf F T i ≠ chunkNameOf F T j :=
        chunkNameOf_ne F T (hb i hmem) (hb j (List.mem_cons_self j l)) (fun h => hij h.symm)
      have hstep : Store.read ((j :: l).map (fun k => (chunkNameOf F T k, payload k)))
          (chunkNameOf F T i)
          = Store.read (l.map (fun k => (chunkNameOf F T k, payload k))) (chunkNameOf F T i) := by
        simp only [List.map_cons, Store.read, List.lookup]
        rw [beq_eq_false_iff_ne.mpr hne]
      rw [hstep]
      exact ih i hi (fun k hk => hb k (List.mem_cons_of_mem _ hk))

/-- Folding the size accumulator equals the sum of the mapped sizes. -/
theorem foldl_add_eq_sum (g : String → Nat) :
    ∀ (L : List String) (a : Nat), L.foldl (fun acc c => acc + g c) a = a + (L.map g).sum := by
  intro L
  induction L with
  | nil => intro a; simp
  | cons c L ih => intro a; simp [ih, Nat.add_assoc]

/-- The aggregate size of a fully processed upload is the sum of the payload
lengths. -/
theorem size_processed {F : String} (hF : plainName F) {T N : Nat} (hN : N ≤ 9999)
    (payload : Nat → Bytes) {order : List Nat} (hperm : order.Perm (List.range' 1 N))
    (num : String) (cs : Nat) :
    size (order.reverse.map (fun i => (chunkNameOf F T i, payload i))) (mkParams F T num cs)
      = .ok (((List.range' 1 N).map (fun i => (payload i).length)).sum) := by
  simp only [size, chunk_names_processed hF hN payload hperm num cs]
  have hmem9 : ∀ j ∈ order.reverse, j ≤ 9999 := by
    intro j hj
    have : j ∈ List.range' 1 N := hperm.mem_iff.mp (List.mem_reverse.mp hj)
    have := List.mem_range'_1.mp this
    omega
  have hsizes : ∀ i ∈ List.range' 1 N,
      Store.size (order.reverse.map (fun k => (chunkNameOf F T k, payload k)))
        (chunkNameOf F T i) = (payload i).length := by
    intro i hi
    have hiord : i ∈ order.reverse := List.mem_reverse.mpr (hperm.mem_iff.mpr hi)
    rw [Store.size, read_processed order.reverse i hiord hmem9]
  refine congrArg Except.ok ?_
  rw [foldl_add_eq_sum]
  have hmaps : ((List.range' 1 N).map (chunkNameOf F T)).map
      (fun c => Store.size (order.reverse.map fun i => (chunkNameOf F T i, payload i)) c)
      = (List.range' 1 N).map (fun i => (payload i).length) := by
    rw [List.map_map]
    refine List.map_congr_left ?_
    intro i hi
    exact hsizes i hi
  rw [hmaps]
  simp

/-- A fully processed upload whose payload lengths sum to the declared total
is complete. -/
theorem is_complete_processed {F : String} (hF : plainName F) {T N : Nat} (hN : N ≤ 9999)
    (payload : Nat → Bytes) {order : List Nat} (hperm : order.Perm (List.range' 1 N))
    (hsum : ((List.range' 1 N).map (fun i => (payload i).length)).sum = T)
    (num : String) (cs : Nat) :
    is_complete (order.reverse.map (fun i => (chunkNameOf F T i, payload i)))
      (mkParams F T num cs) = .ok true := by
  simp only [is_complete, size_processed hF hN payload hperm num cs, hsum]
  simp [mkParams]

/-- Folding the merge loop with no read faults concatenates the chunks, in
order, after the accumulated content, leaving the position at the end. -/
theorem foldlM_writeChunk_no_faults (st : Store) :
    ∀ (L : List String) (acc : TempFile),
      L.foldlM (writeChunk (fun _ _ => false) st) acc =
        .ok ⟨acc.content ++ (L.map (Store.read st)).flatten,
             acc.pos + ((L.map (Store.read st)).flatten).length⟩ := by
  intro L
  induction L with
  | nil =>
    intro acc
    simp [List.foldlM_nil]
    rfl
  | cons c L ih =>
    intro acc
    rw [List.foldlM_cons]
    have hw : writeChunk (fun _ _ => false) st acc c = .ok (acc.write (Store.read st c)) := rfl
    rw [hw]
    have hb : ((Except.ok (acc.write (Store.read st c)) : Except UploadError TempFile) >>=
        fun b => L.foldlM (writeChunk (fun _ _ => false) st) b)
        = L.foldlM (writeChunk (fun _ _ => false) st) (acc.write (Store.read st c)) := rfl
    rw [hb, ih]
    simp [TempFile.write, List.append_assoc, List.length_append]
    omega

/-- Merging a fully processed upload with fault-free reads yields exactly the
payload concatenation in ascending index order, with the handle position left
at the end of the written content. -/
theorem file_processed {F : String} (hF : plainName F) {T N : Nat} (hN : N ≤ 9999)
    (payload : Nat → Bytes) {order : List Nat} (hperm : order.Perm (List.range' 1 N))
    (hsum : ((List.range' 1 N).map (fun i => (payload i).length)).sum = T)
    (num : String) (cs : Nat) :
    file (fun _ _ => false) (order.reverse.map (fun i => (chunkNameOf F T i, payload i)))
      (mkParams F T num cs) =
      .ok ⟨((List.range' 1 N).map payload).flatten,
           (((List.range' 1 N).map payload).flatten).length⟩ := by
  have hmem9 : ∀ j ∈ order.reverse, j ≤ 9999 := by
    intro j hj
    have : j ∈ List.range' 1 N := hperm.mem_iff.mp (List.mem_reverse.mp hj)
    have := List.mem_range'_1.mp this
    omega
  have hreads : ((List.range' 1 N).map (chunkNameOf F T)).map
      (fun c => Store.read (order.reverse.map fun i => (chunkNameOf F T i, payload i)) c)
      = (List.range' 1 N).map payload := by
    rw [List.map_map]
    refine List.map_congr_left ?_
    intro i hi
    have hiord : i ∈ order.reverse := List.mem_reverse.mpr (hperm.mem_iff.mpr hi)
    exact read_processed order.reverse i hiord hmem9
  simp only [file, is_complete_processed hF hN payload hperm hsum num cs,
    chunk_names_processed hF hN payload hperm num cs, Bool.true_eq_false, if_false,
    foldlM_writeChunk_no_faults, hreads]
  simp

/-- Claim C1, counterexample to the claim as stated: a single chunk (index 1)
of declared size 5 whose delivered payload is only 3 bytes long satisfies the
claim's premise (the declared sizes, 5, sum to the declared total, 5, and the
indices 1..1 are distinct), yet after processing it, is_complete returns
false rather than the claimed true, because is_complete compares the declared
total against the stored byte count. -/
theorem claim_c1_counterexample :
    processAll "a" 5 (fun _ => [0, 0, 0]) [1] [] = .ok [("5_a_part_0001", [0, 0, 0])] ∧
    is_complete [("5_a_part_0001", [0, 0, 0])] (mkParams "a" 5 (pyStr 1) 5) =
      .ok false := by
  constructor
  · rfl
  · decide

/-- Claim C1 (amended): for every upload with a filename that contains no
path separator and no fnmatch metacharacter, and every N up to the 9999
capacity of the four-digit zero-fill, if the N chunks with distinct indices
1..N have payload byte lengths summing to the declared total size, then after
all N chunks are processed by process_chunk in any arrival order starting
from an empty chunk store, is_complete returns true and the merge (the file
property) writes bytes exactly equal to the concatenation of the chunk
payloads in ascending chunk-index order, independent of the arrival order. -/
theorem claim_c1 {F : String} {T N : Nat} {payload : Nat → Bytes} {order : List Nat}
    (hF : plainName F) (hN : N ≤ 9999) (hperm : order.Perm (List.range' 1 N))
    (hsum : ((List.range' 1 N).map (fun i => (payload i).length)).sum = T) :
    ∃ st : Store,
      processAll F T payload order [] = .ok st ∧
      is_complete st (mkParams F T (pyStr 1) 0) = .ok true ∧
      file (fun _ _ => false) st (mkParams F T (pyStr 1) 0) =
        .ok ⟨((List.range' 1 N).map payload).flatten,
             (((List.range' 1 N).map payload).flatten).length⟩ := by
  refine ⟨order.reverse.map (fun i => (chunkNameOf F T i, payload i)), ?_, ?_, ?_⟩
  · have hbound : ∀ i ∈ order, i ≤ 9999 := by
      intro i hi
      have := List.mem_range'_1.mp (hperm.mem_iff.mp hi)
      omega
    have hnodup : order.Nodup :=
      hperm.nodup_iff.mpr (List.nodup_range' 1 N)
    have h := processAll_result hF T payload order [] hbound hnodup
      (fun i _ => rfl)
    simpa using h
  · exact is_complete_processed hF hN payload hperm hsum (pyStr 1) 0
  · exact file_processed hF hN payload hperm hsum (pyStr 1) 0

/-- Claim C1, witness: two chunks of sizes 1 and 2 delivered in reverse
order; the amended theorem applies and yields the in-order concatenation. -/
theorem claim_c1_witness :
    ∃ st : Store,
      processAll "ab" 3 (fun i => List.replicate i 7) [2, 1] [] = .ok st ∧
      is_complete st (mkParams "ab" 3 (pyStr 1) 0) = .ok true ∧
      file (fun _ _ => false) st (mkParams "ab" 3 (pyStr 1) 0) =
        .ok ⟨((List.range' 1 2).map (fun i => List.replicate i 7)).flatten,
             (((List.range' 1 2).map (fun i => List.replicate i 7)).flatten).length⟩ :=
  claim_c1 (by decide) (by decide) (by decide) (by decide)

/-- Deleting a name removes it from the store. -/
theorem exists_delete_self (st : Store) (n : String) :
    Store.exists' (Store.delete st n) n = false := by
  simp [Store.exists', Store.delete, List.any_eq_true, List.mem_filter]

/-- Deleting a name drops a front blob of that very name. -/
theorem delete_cons_self (st : Store) (n : String) (b : Bytes) :
    Store.delete ((n, b) :: st) n = Store.delete st n := by
  simp [Store.delete]

/-- Deleting an absent name leaves the store unchanged. -/
theorem delete_of_not_exists {st : Store} {n : String}
    (h : Store.exists' st n = false) : Store.delete st n = st := by
  rw [Store.delete, List.filter_eq_self]
  intro e he
  simp only [bne_iff_ne, ne_eq]
  intro hc
  rw [Bool.eq_false_iff] at h
  exact h (List.any_eq_true.mpr ⟨e, he, by simp [hc]⟩)

/-- Claim C5: deriving the upload identity (the filename property) fails with
the invalid-filename error exactly when the declared filename contains the
path separator, and for every accepted filename the identity equals
"<declaredTotalSize>_<filename>"; the derivation is a pure function of the
request parameters alone — it takes no storage argument, so the rejection
happens before any storage input or output can occur. -/
theorem claim_c5 (p : Params) :
    (filename p = .error .invalidFilename ↔ '/' ∈ p.resumableFilename.data) ∧
    ('/' ∉ p.resumableFilename.data →
      filename p = .ok (pyStr p.resumableTotalSize ++ "_" ++ p.resumableFilename)) := by
  have hok : '/' ∉ p.resumableFilename.data →
      filename p = .ok (pyStr p.resumableTotalSize ++ "_" ++ p.resumableFilename) := by
    intro hmem
    have hc : p.resumableFilename.data.contains '/' = false := by
      rw [Bool.eq_false_iff]
      intro hc
      exact hmem (List.mem_of_elem_eq_true hc)
    simp only [filename, hc, Bool.false_eq_true, if_false]
  refine ⟨⟨?_, ?_⟩, hok⟩
  · intro h
    by_contra hmem
    rw [hok hmem] at h
    cases h
  · intro hmem
    have hc : p.resumableFilename.data.contains '/' = true :=
      List.elem_eq_true_of_mem hmem
    simp only [filename, hc, if_true]

/-- Claim C5, witness: a filename with a path separator is rejected, a plain
one yields the identity. -/
theorem claim_c5_witness :
    filename (mkParams "dir/x" 5 "1" 0) = .error .invalidFilename ∧
    filename (mkParams "x" 5 "1" 0) = .ok "5_x" :=
  ⟨(claim_c5 (mkParams "dir/x" 5 "1" 0)).1.mpr (by decide),
   (claim_c5 (mkParams "x" 5 "1" 0)).2 (by decide)⟩

/-- Claim C6: chunk_exists reports a chunk as valid exactly when a chunk of
the current chunk name is stored and its stored size equals the declared
resumableCurrentChunkSize; in the truncation scenario — declared chunk size
5 but only 3 bytes stored — chunk_exists is false and is_complete stays
false even though a chunk of that name exists in the store. -/
theorem claim_c6 :
    (∀ (st : Store) (p : Params) (ccn : String), current_chunk_name p = .ok ccn →
      (chunk_exists st p = .ok true ↔
        Store.exists' st ccn = true ∧
        Store.size st ccn = p.resumableCurrentChunkSize)) ∧
    (chunk_exists [("5_a_part_0001", [9, 9, 9])] (mkParams "a" 5 "1" 5) = .ok false ∧
     is_complete [("5_a_part_0001", [9, 9, 9])] (mkParams "a" 5 "1" 5) = .ok false ∧
     Store.exists' [("5_a_part_0001", [9, 9, 9])] "5_a_part_0001" = true) := by
  constructor
  · intro st p ccn hccn
    simp only [chunk_exists, hccn]
    constructor
    · intro h
      have h2 := Except.ok.inj h
      rw [Bool.and_eq_true] at h2
      exact ⟨h2.1, by simpa using h2.2⟩
    · rintro ⟨h1, h2⟩
      simp [h1, h2]
  · exact ⟨by decide, by decide, by decide⟩

/-- Claim C6, witness: the validity reading at a concrete stored chunk whose
size matches the declaration. -/
theorem claim_c6_witness :
    chunk_exists [("5_a_part_0001", [1, 2, 3, 4, 5])] (mkParams "a" 5 "1" 5) = .ok true ↔
      Store.exists' [("5_a_part_0001", [1, 2, 3, 4, 5])] "5_a_part_0001" = true ∧
      Store.size [("5_a_part_0001", [1, 2, 3, 4, 5])] "5_a_part_0001" = 5 :=
  claim_c6.1 [("5_a_part_0001", [1, 2, 3, 4, 5])] (mkParams "a" 5 "1" 5)
    "5_a_part_0001" (by decide)

/-- Claim C9: process_chunk is not atomic on overwrite — when a chunk of the
current chunk name already exists, the delete runs before the save, so in an
execution where the save step fails after the delete, the resulting chunk
store holds no chunk of that name: the previously stored content is lost
rather than restored. -/
theorem claim_c9 (st : Store) (p : Params) (b : Bytes) (ccn : String)
    (hccn : current_chunk_name p = .ok ccn)
    (hex : Store.exists' st ccn = true) :
    process_chunk_run true st p b = (Store.delete st ccn, .error .chunkStoreFailure) ∧
    Store.exists' (Store.delete st ccn) ccn = false := by
  refine ⟨?_, exists_delete_self st ccn⟩
  simp only [process_chunk_run, hccn, hex, if_true]

/-- Claim C9, witness: a stored one-byte chunk is gone after an overwrite
whose save step fails. -/
theorem claim_c9_witness :
    process_chunk_run true [("5_a_part_0001", [1])] (mkParams "a" 5 "1" 1) [9] =
      (Store.delete [("5_a_part_0001", [1])] "5_a_part_0001",
        .error .chunkStoreFailure) ∧
    Store.exists' (Store.delete [("5_a_part_0001", [1])] "5_a_part_0001")
      "5_a_part_0001" = false :=
  claim_c9 [("5_a_part_0001", [1])] (mkParams "a" 5 "1" 1) [9] "5_a_part_0001"
    (by decide) (by decide)

/-- Claim C10: filename validation rejects only names containing the path
separator — every other filename is accepted, wildcards included — and since
chunk_names filters the storage listing with fnmatch on the raw identity, the
accepted wildcard filename "a?" lists the foreign chunk "5_ab_part_0001"
(whose name does not start with this upload's own prefix "5_a?_part_"), and
the aggregate size counts that foreign chunk's bytes. -/
theorem claim_c10 :
    (∀ p : Params, '/' ∉ p.resumableFilename.data → ∃ v, filename p = .ok v) ∧
    (filename (mkParams "a?" 5 "1" 1) = .ok "5_a?" ∧
     chunk_names [("5_ab_part_0001", [9])] (mkParams "a?" 5 "1" 1) =
       .ok ["5_ab_part_0001"] ∧
     ("5_a?" ++ chunk_suffix).data.isPrefixOf ("5_ab_part_0001" : String).data = false ∧
     size [("5_ab_part_0001", [9])] (mkParams "a?" 5 "1" 1) = .ok 1) := by
  constructor
  · intro p hmem
    refine ⟨pyStr p.resumableTotalSize ++ "_" ++ p.resumableFilename, ?_⟩
    have hc : p.resumableFilename.data.contains '/' = false := by
      rw [Bool.eq_false_iff]
      intro hc
      exact hmem (List.mem_of_elem_eq_true hc)
    simp only [filename, hc, Bool.false_eq_true, if_false]
  · exact ⟨by decide, by decide, by decide, by decide⟩

/-- Claim C10, witness: a filename containing a star is accepted. -/
theorem claim_c10_witness : ∃ v, filename (mkParams "a*b" 7 "1" 1) = .ok v :=
  claim_c10.1 (mkParams "a*b" 7 "1" 1) (by decide)

/-- Claim C3: whenever is_complete is false, the merge (the file property)
fails with the incomplete-upload error, collect fails the same way, and every
chunk already present is left unchanged by the failed call: collect returns
the input chunk store as is, and file performs no store mutation at all. -/
theorem claim_c3 (env : Env) (faults : ReadFaults) (st : Store) (p : Params)
    (hcomp : is_complete st p = .ok false) :
    file faults st p = .error .incompleteUpload ∧
    collect env faults st p = (st, .error .incompleteUpload) := by
  have hfile : file faults st p = .error .incompleteUpload := by
    simp [file, hcomp]
  refine ⟨hfile, ?_⟩
  cases hfn : filename p with
  | error e =>
    exfalso
    have : is_complete st p = .error e := by
      simp [is_complete, size, chunk_names, hfn]
    rw [this] at hcomp
    cases hcomp
  | ok fn =>
    simp [collect, storage_filename, hfn, hfile]

/-- Claim C3, witness: a three-byte chunk of a five-byte upload makes both
merge and collect fail with the incomplete-upload error and leaves the store
untouched. -/
theorem claim_c3_witness :
    file (fun _ _ => false) [("5_a_part_0001", [1, 2, 3])] (mkParams "a" 5 "1" 5)
      = .error .incompleteUpload ∧
    collect ⟨fun fn u => u ++ fn, "up/", fun _ _ => some "saved"⟩ (fun _ _ => false)
      [("5_a_part_0001", [1, 2, 3])] (mkParams "a" 5 "1" 5)
      = ([("5_a_part_0001", [1, 2, 3])], .error .incompleteUpload) :=
  claim_c3 ⟨fun fn u => u ++ fn, "up/", fun _ _ => some "saved"⟩ (fun _ _ => false)
    [("5_a_part_0001", [1, 2, 3])] (mkParams "a" 5 "1" 5) (by decide)

/-- Folding deletes over a list of names filters exactly those names out. -/
theorem foldl_delete_eq_filter :
    ∀ (L : List String) (st : Store),
      L.foldl Store.delete st = st.filter (fun e => !(L.contains e.1)) := by
  intro L
  induction L with
  | nil =>
    intro st
    simp [List.contains]
  | cons a L ih =>
    intro st
    rw [List.foldl_cons]
    show L.foldl Store.delete (Store.delete st a) = _
    rw [ih, Store.delete, List.filter_filter]
    refine List.filter_congr ?_
    intro e _
    simp only [List.contains_cons, Bool.not_or, bne]
    rw [Bool.and_comm]

/-- After delete_chunks, the matching chunk listing is empty. -/
theorem chunk_names_delete_chunks {st : Store} {p : Params} {st2 : Store}
    (h : delete_chunks st p = .ok st2) :
    chunk_names st2 p = .ok [] := by
  cases hfn : filename p with
  | error e =>
    exfalso
    have : delete_chunks st p = .error e := by
      simp [delete_chunks, chunk_names, hfn]
    rw [this] at h
    cases h
  | ok fn =>
    have hL : chunk_names st p = .ok
        (((Store.listdir st).insertionSort (fun a b : String => a ≤ b)).filter
          (fun f => fnmatch f (fn ++ chunk_suffix ++ "*"))) := by
      simp [chunk_names, hfn]
    have hst2 : st2 = (((Store.listdir st).insertionSort (fun a b : String => a ≤ b)).filter
        (fun f => fnmatch f (fn ++ chunk_suffix ++ "*"))).foldl Store.delete st := by
      have hd : delete_chunks st p = .ok
          ((((Store.listdir st).insertionSort (fun a b : String => a ≤ b)).filter
            (fun f => fnmatch f (fn ++ chunk_suffix ++ "*"))).foldl Store.delete st) := by
        simp [delete_chunks, hL]
      rw [hd] at h
      exact (Except.ok.inj h).symm
  -- abbreviate the deleted name list
    rw [hst2, foldl_delete_eq_filter]
    simp only [chunk_names, hfn]
    refine congrArg Except.ok ?_
    rw [List.filter_eq_nil_iff]
    intro a ha
    have hmem : a ∈ Store.listdir (st.filter (fun e =>
        !((((Store.listdir st).insertionSort (fun a b : String => a ≤ b)).filter
          (fun f => fnmatch f (fn ++ chunk_suffix ++ "*"))).contains e.1))) :=
      (List.perm_insertionSort _ _).mem_iff.mp ha
    obtain ⟨e, he, rfl⟩ := List.mem_map.mp hmem
    have he2 := List.mem_filter.mp he
    intro hmatch
    have hinL : e.1 ∈ ((Store.listdir st).insertionSort (fun a b : String => a ≤ b)).filter
        (fun f => fnmatch f (fn ++ chunk_suffix ++ "*")) := by
      refine List.mem_filter.mpr ⟨?_, hmatch⟩
      exact (List.perm_insertionSort _ _).mem_iff.mpr (List.mem_map.mpr ⟨e, he2.1, rfl⟩)
    have hX : (((Store.listdir st).insertionSort (fun a b : String => a ≤ b)).filter
        (fun f => fnmatch f (fn ++ chunk_suffix ++ "*"))).contains e.1 = true :=
      List.elem_eq_true_of_mem hinL
    have hXf := he2.2
    rw [hX] at hXf
    simp at hXf

/-- Claim C2: in collect, chunk deletion runs only after the persistent save
has returned successfully: if the save fails, collect returns the chunk
store unchanged, so every chunk remains; after a successful collect the
matching chunk listing on the resulting store is empty and the returned
value is exactly the filename assigned by the persistent store. -/
theorem claim_c2 (env : Env) (faults : ReadFaults) (st : Store) (p : Params)
    (sfn : String) (hsf : storage_filename env p = .ok sfn)
    (tf : TempFile) (hfile : file faults st p = .ok tf) :
    (env.psave sfn tf.content = none →
      collect env faults st p = (st, .error .persistentStoreFailure)) ∧
    (∀ actual, env.psave sfn tf.content = some actual →
      (collect env faults st p).2 = .ok actual ∧
      chunk_names (collect env faults st p).1 p = .ok []) := by
  constructor
  · intro hnone
    simp [collect, hsf, hfile, hnone]
  · intro actual hsome
    have hfn : ∃ fn, filename p = .ok fn := by
      cases hfn : filename p with
      | error e =>
        rw [storage_filename, hfn] at hsf
        cases hsf
      | ok fn => exact ⟨fn, rfl⟩
    obtain ⟨fn, hfn⟩ := hfn
    have hdel : ∃ st2, delete_chunks st p = .ok st2 := by
      simp [delete_chunks, chunk_names, hfn]
    obtain ⟨st2, hdel⟩ := hdel
    have hcoll : collect env faults st p = (st2, .ok actual) := by
      simp [collect, hsf, hfile, hsome, hdel]
    rw [hcoll]
    exact ⟨rfl, chunk_names_delete_chunks hdel⟩

/-- Claim C2, witness: a complete one-chunk upload collects successfully; the
persistent store's assigned name is returned and the listing afterwards is
empty. -/
theorem claim_c2_witness :
    (collect ⟨fun fn u => u ++ fn, "up/", fun _ _ => some "persisted"⟩ (fun _ _ => false)
        [("3_a_part_0001", [1, 2, 3])] (mkParams "a" 3 "1" 3)).2 = .ok "persisted" ∧
    chunk_names (collect ⟨fun fn u => u ++ fn, "up/", fun _ _ => some "persisted"⟩
        (fun _ _ => false) [("3_a_part_0001", [1, 2, 3])] (mkParams "a" 3 "1" 3)).1
      (mkParams "a" 3 "1" 3) = .ok [] :=
  (claim_c2 ⟨fun fn u => u ++ fn, "up/", fun _ _ => some "persisted"⟩ (fun _ _ => false)
    [("3_a_part_0001", [1, 2, 3])] (mkParams "a" 3 "1" 3) "up/3_a" (by decide)
    ⟨[1, 2, 3], 3⟩ (by decide)).2 "persisted" rfl

/-- current_chunk_name under a plain filename, for an arbitrary wire chunk
number. -/
theorem current_chunk_name_ok2 {F : String} (hF : plainName F) (T cs : Nat) (num : String) :
    current_chunk_name (mkParams F T num cs)
      = .ok (identity F T ++ chunk_suffix ++ zfill num 4) := by
  rw [current_chunk_name, filename_ok hF]
  rfl

/-- The current chunk name always matches its own upload's listing pattern
when the filename is plain. -/
theorem fnmatch_currentName {F : String} (hF : plainName F) (T : Nat) (num : String) :
    fnmatch (identity F T ++ chunk_suffix ++ zfill num 4)
      (identity F T ++ chunk_suffix ++ "*") = true := by
  rw [fnmatch_prefix_pattern _ _ (identity_suffix_plain hF T)]
  rw [String.data_append]
  exact List.isPrefixOf_iff_prefix.mpr (List.prefix_append _ _)

/-- Claim C4: process_chunk is an idempotent overwrite: repeating an
identical call leaves the chunk store — and with it the aggregate size —
unchanged, and re-sending the same chunk number with different bytes
replaces the prior content, so the old bytes are no longer stored under the
chunk name and the name occurs exactly once in the matching chunk listing. -/
theorem claim_c4 {F : String} (hF : plainName F) (T cs : Nat) (num : String)
    (st st1 : Store) (b b2 : Bytes)
    (h1 : process_chunk st (mkParams F T num cs) b = .ok st1) :
    process_chunk st1 (mkParams F T num cs) b = .ok st1 ∧
    ∃ st2, process_chunk st1 (mkParams F T num cs) b2 = .ok st2 ∧
      Store.read st2 (identity F T ++ chunk_suffix ++ zfill num 4) = b2 ∧
      (b ≠ b2 → (identity F T ++ chunk_suffix ++ zfill num 4, b) ∉ st2) ∧
      ∃ L, chunk_names st2 (mkParams F T num cs) = .ok L ∧
        L.count (identity F T ++ chunk_suffix ++ zfill num 4) = 1 := by
  simp only [process_chunk, current_chunk_name_ok2 hF] at h1 ⊢
  set ccn := identity F T ++ chunk_suffix ++ zfill num 4 with hccn
  set stdel := if Store.exists' st ccn = true then Store.delete st ccn else st with hstdel
  have hst1 : st1 = (ccn, b) :: stdel := (Except.ok.inj h1).symm
  have hno : Store.exists' stdel ccn = false := by
    rw [hstdel]
    cases hex : Store.exists' st ccn
    · simp [hex]
    · simp [hex, exists_delete_self]
  have hex1 : Store.exists' st1 ccn = true := by
    rw [hst1, exists_cons]
    simp
  have hdel1 : Store.delete st1 ccn = stdel := by
    rw [hst1]
    show Store.delete ((ccn, b) :: stdel) ccn = stdel
    rw [delete_cons_self, delete_of_not_exists hno]
  constructor
  · simp only [hex1, if_true]
    rw [hdel1, hst1]
    rfl
  · refine ⟨(ccn, b2) :: stdel, ?_, ?_, ?_, ?_⟩
    · simp only [hex1, if_true]
      rw [hdel1]
      rfl
    · simp [Store.read, List.lookup]
    · intro hbne hmem
      rcases List.mem_cons.mp hmem with h | h
      · exact hbne (congrArg Prod.snd h)
      · rw [Bool.eq_false_iff] at hno
        exact hno (List.any_eq_true.mpr ⟨(ccn, b), h, by simp⟩)
    · refine ⟨((Store.listdir ((ccn, b2) :: stdel)).insertionSort
          (fun a b : String => a ≤ b)).filter
            (fun f => fnmatch f (identity F T ++ chunk_suffix ++ "*")), ?_, ?_⟩
      · simp only [chunk_names, filename_ok hF]
      · have hld : Store.listdir ((ccn, b2) :: stdel) = ccn :: Store.listdir stdel := rfl
        rw [hld]
        have hnotmem : ccn ∉ Store.listdir stdel := by
          intro hmem
          rw [← exists_iff_mem_listdir] at hmem
          rw [hmem] at hno
          cases hno
        have hcount0 : (Store.listdir stdel).count ccn = 0 :=
          List.count_eq_zero_of_not_mem hnotmem
        have hcount1 : (ccn :: Store.listdir stdel).count ccn = 1 := by
          rw [List.count_cons_self, hcount0]
        have hperm := List.perm_insertionSort (fun a b : String => a ≤ b)
          (ccn :: Store.listdir stdel)
        rw [List.count_filter (by exact fnmatch_currentName hF T num)]
        rw [hperm.count_eq, hcount1]

/-- Claim C4, witness: storing chunk 1 of upload (a, 5) and repeating or
overwriting it. -/
theorem claim_c4_witness :
    process_chunk [("5_a_part_0001", [1, 2])] (mkParams "a" 5 "1" 5) [1, 2]
      = .ok [("5_a_part_0001", [1, 2])] ∧
    ∃ st2, process_chunk [("5_a_part_0001", [1, 2])] (mkParams "a" 5 "1" 5) [3, 4]
        = .ok st2 ∧
      Store.read st2 (identity "a" 5 ++ chunk_suffix ++ zfill "1" 4) = [3, 4] ∧
      ([1, 2] ≠ [3, 4] → (identity "a" 5 ++ chunk_suffix ++ zfill "1" 4, [1, 2]) ∉ st2) ∧
      ∃ L, chunk_names st2 (mkParams "a" 5 "1" 5) = .ok L ∧
        L.count (identity "a" 5 ++ chunk_suffix ++ zfill "1" 4) = 1 :=
  claim_c4 (by decide) 5 5 "1" [] [("5_a_part_0001", [1, 2])] [1, 2] [3, 4] (by decide)

/-- A chunk write whose retry attempt is clean produces the chunk's bytes,
whatever the first attempt did. -/
theorem writeChunk_second_ok {faults : ReadFaults} {st : Store} {c : String}
    (h1 : faults c 1 = false) (acc : TempFile) :
    writeChunk faults st acc c = .ok (acc.write (Store.read st c)) := by
  cases h0 : faults c 0 <;> simp [writeChunk, readChunk, h0, h1]

/-- A chunk write either succeeds or fails with the read-failure error. -/
theorem writeChunk_cases (faults : ReadFaults) (st : Store) (acc : TempFile) (c : String) :
    (∃ tf, writeChunk faults st acc c = .ok tf) ∨
      writeChunk faults st acc c = .error .chunkReadFailure := by
  cases h0 : faults c 0 <;> cases h1 : faults c 1 <;>
    simp [writeChunk, readChunk, h0, h1]

/-- When a successful chunk write returns a handle, it is the accumulator
with one more write applied. -/
theorem writeChunk_ok_shape {faults : ReadFaults} {st : Store} {acc : TempFile}
    {c : String} {tf : TempFile} (h : writeChunk faults st acc c = .ok tf) :
    ∃ b, tf = acc.write b := by
  cases h0 : faults c 0 with
  | false =>
    simp [writeChunk, readChunk, h0] at h
    exact ⟨_, h.symm⟩
  | true =>
    cases h1 : faults c 1 with
    | false =>
      simp [writeChunk, readChunk, h0, h1] at h
      exact ⟨_, h.symm⟩
    | true => simp [writeChunk, readChunk, h0, h1] at h

/-- A doubly faulting chunk in the listing makes the merge loop fail with the
read-failure error, whichever chunk fails first. -/
theorem foldlM_writeChunk_double_fault {faults : ReadFaults} {st : Store} {c : String}
    (h0 : faults c 0 = true) (h1 : faults c 1 = true) :
    ∀ (L : List String) (acc : TempFile), c ∈ L →
      L.foldlM (writeChunk faults st) acc = .error .chunkReadFailure := by
  intro L
  induction L with
  | nil => intro acc h; cases h
  | cons d L ih =>
    intro acc hmem
    rw [List.foldlM_cons]
    by_cases hdc : d = c
    · subst hdc
      have hw : writeChunk faults st acc d = .error .chunkReadFailure := by
        simp [writeChunk, readChunk, h0, h1]
      rw [hw]
      rfl
    · have hc : c ∈ L := by
        rcases List.mem_cons.mp hmem with h | h
        · exact absurd h.symm hdc
        · exact h
      rcases writeChunk_cases faults st acc d with ⟨tf, htf⟩ | herr
      · rw [htf]
        have hb : ((Except.ok tf : Except UploadError TempFile) >>=
            fun b => L.foldlM (writeChunk faults st) b)
            = L.foldlM (writeChunk faults st) tf := rfl
        rw [hb]
        exact ih tf hc
      · rw [herr]
        rfl

/-- With every retry attempt clean, the merge loop computes the same result
as the fault-free loop. -/
theorem foldlM_writeChunk_retry {faults : ReadFaults} {st : Store}
    (h1 : ∀ c, faults c 1 = false) :
    ∀ (L : List String) (acc : TempFile),
      L.foldlM (writeChunk faults st) acc =
        L.foldlM (writeChunk (fun _ _ => false) st) acc := by
  intro L
  induction L with
  | nil => intro acc; rfl
  | cons c L ih =>
    intro acc
    rw [List.foldlM_cons, List.foldlM_cons]
    rw [writeChunk_second_ok (h1 c) acc]
    have hw2 : writeChunk (fun _ _ => false) st acc c
        = .ok (acc.write (Store.read st c)) := rfl
    rw [hw2]
    have hba : ((Except.ok (acc.write (Store.read st c)) : Except UploadError TempFile) >>=
        fun b => L.foldlM (writeChunk faults st) b)
        = L.foldlM (writeChunk faults st) (acc.write (Store.read st c)) := rfl
    have hbb : ((Except.ok (acc.write (Store.read st c)) : Except UploadError TempFile) >>=
        fun b => L.foldlM (writeChunk (fun _ _ => false) st) b)
        = L.foldlM (writeChunk (fun _ _ => false) st) (acc.write (Store.read st c)) := rfl
    rw [hba, hbb]
    exact ih _

/-- Claim C7: during merge a failed chunk read is retried exactly once,
immediately and in-process — whenever every retry attempt succeeds, the merge
result is identical to the fault-free merge — and if both attempts on some
listed chunk fail, the file property fails with the read-failure error and
collect propagates it while returning the chunk store unchanged, so a later
finalize retry can succeed. -/
theorem claim_c7 (env : Env) (st : Store) (p : Params) (faults : ReadFaults)
    (names : List String) (hnames : chunk_names st p = .ok names)
    (hcomp : is_complete st p = .ok true) :
    ((∀ c, faults c 1 = false) →
      file faults st p = file (fun _ _ => false) st p) ∧
    (∀ c ∈ names, faults c 0 = true → faults c 1 = true →
      file faults st p = .error .chunkReadFailure ∧
      collect env faults st p = (st, .error .chunkReadFailure)) := by
  have hfileT : ∀ g : ReadFaults, file g st p =
      names.foldlM (writeChunk g st) (⟨[], 0⟩ : TempFile) := by
    intro g
    simp [file, hcomp, hnames]
  constructor
  · intro h1
    rw [hfileT faults, hfileT (fun _ _ => false)]
    exact foldlM_writeChunk_retry h1 names ⟨[], 0⟩
  · intro c hc h0 h1
    have hfe : file faults st p = .error .chunkReadFailure := by
      rw [hfileT faults]
      exact foldlM_writeChunk_double_fault h0 h1 names ⟨[], 0⟩ hc
    refine ⟨hfe, ?_⟩
    have hfn : ∃ fn, filename p = .ok fn := by
      cases hfn : filename p with
      | error e =>
        rw [chunk_names, hfn] at hnames
        cases hnames
      | ok fn => exact ⟨fn, rfl⟩
    obtain ⟨fn, hfn⟩ := hfn
    simp [collect, storage_filename, hfn, hfe]

/-- Claim C7, witness: a complete one-chunk upload whose chunk read fails on
both attempts makes file and collect fail with the read-failure error and
leaves the store untouched. -/
theorem claim_c7_witness :
    file (fun _ _ => true) [("3_a_part_0001", [1, 2, 3])] (mkParams "a" 3 "1" 3)
      = .error .chunkReadFailure ∧
    collect ⟨fun fn u => u ++ fn, "up/", fun _ _ => some "x"⟩ (fun _ _ => true)
      [("3_a_part_0001", [1, 2, 3])] (mkParams "a" 3 "1" 3)
      = ([("3_a_part_0001", [1, 2, 3])], .error .chunkReadFailure) :=
  (claim_c7 ⟨fun fn u => u ++ fn, "up/", fun _ _ => some "x"⟩
    [("3_a_part_0001", [1, 2, 3])] (mkParams "a" 3 "1" 3) (fun _ _ => true)
    ["3_a_part_0001"] (by decide) (by decide)).2 "3_a_part_0001"
    (List.mem_singleton.mpr rfl) rfl rfl

/-- The merge loop preserves the invariant that the handle position sits at
the end of the written content. -/
theorem foldlM_writeChunk_pos (faults : ReadFaults) (st : Store) :
    ∀ (L : List String) (acc tf : TempFile), acc.pos = acc.content.length →
      L.foldlM (writeChunk faults st) acc = .ok tf → tf.pos = tf.content.length := by
  intro L
  induction L with
  | nil =>
    intro acc tf hinv h
    have hacc : acc = tf := Except.ok.inj h
    rw [← hacc]
    exact hinv
  | cons c L ih =>
    intro acc tf hinv h
    rw [List.foldlM_cons] at h
    cases hw : writeChunk faults st acc c with
    | error e =>
      rw [hw] at h
      cases h
    | ok acc2 =>
      rw [hw] at h
      have hb : ((Except.ok acc2 : Except UploadError TempFile) >>=
          fun b => L.foldlM (writeChunk faults st) b)
          = L.foldlM (writeChunk faults st) acc2 := rfl
      rw [hb] at h
      obtain ⟨b, rfl⟩ := writeChunk_ok_shape hw
      refine ih _ tf ?_ h
      simp [TempFile.write, hinv, List.length_append]

/-- Claim C8, counterexample to the claim as stated: merging the complete
one-chunk upload ("a", total 1) succeeds with merged bytes [7], but the
returned temporary-file handle is positioned at 1, the end of the content,
not at the start, so a caller reading from the handle without repositioning
reads nothing. -/
theorem claim_c8_counterexample :
    file (fun _ _ => false) [("1_a_part_0001", [7])] (mkParams "a" 1 "1" 1)
      = .ok ⟨[7], 1⟩ ∧ (⟨[7], 1⟩ : TempFile).pos ≠ 0 := by
  exact ⟨by decide, by decide⟩

/-- Claim C8 (amended): when merge succeeds, the returned temporary-file
handle is positioned at the end of the merged content — its position equals
the length of the merged bytes, so it sits at the start only for an empty
merge, and a caller must reposition the handle before reading. -/
theorem claim_c8 (faults : ReadFaults) (st : Store) (p : Params) (tf : TempFile)
    (h : file faults st p = .ok tf) : tf.pos = tf.content.length := by
  unfold file at h
  cases hic : is_complete st p with
  | error e =>
    simp only [hic] at h
    cases h
  | ok comp =>
    simp only [hic] at h
    by_cases hcomp : comp = false
    · rw [if_pos hcomp] at h
      cases h
    · rw [if_neg hcomp] at h
      cases hcn : chunk_names st p with
      | error e =>
        simp only [hcn] at h
        cases h
      | ok names =>
        simp only [hcn] at h
        exact foldlM_writeChunk_pos faults st names ⟨[], 0⟩ tf rfl h

/-- Claim C8, witness: the amended theorem applied to the concrete one-chunk
merge, whose handle ends at position 1 = length of the merged byte list. -/
theorem claim_c8_witness :
    (⟨[7], 1⟩ : TempFile).pos = (⟨[7], 1⟩ : TempFile).content.length :=
  claim_c8 (fun _ _ => false) [("1_a_part_0001", [7])] (mkParams "a" 1 "1" 1)
    ⟨[7], 1⟩ (by decide)

end AsyncUpload
